import Mathlib

/-!
Verification of `src/get_composition_vector2.cpp` from the
`landscapemetrics` repository.

The source exposes one function:

    Rcpp::IntegerVector rcpp_get_composition_vector2(const Rcpp::NumericVector & v)
    {
        Rcpp::IntegerVector B = table(v);
        return B;
    }

`Rcpp::table` tabulates the numeric vector into a value-keyed sorted map
(one entry per distinct value, keys in ascending order, each entry holding
the number of occurrences of its key) and emits the counts in key order.
We embed the numeric domain as `ℚ` (exact equality and a decidable total
order, matching the exact-equality grouping of the source) and the
tabulation as a fold inserting each element into a sorted association
list of counts.
-/

/-- One tabulation step: record one more occurrence of `x` in the sorted
count map `m` (keys strictly ascending), inserting a fresh entry with
count 1 when `x` is not yet a key. This models one iteration of the
value-keyed sorted-map tabulation performed by `Rcpp::table`. -/
def insertCount : List (ℚ × ℕ) → ℚ → List (ℚ × ℕ)
  | [], x => [(x, 1)]
  | (k, c) :: rest, x =>
    if x < k then (x, 1) :: (k, c) :: rest
    else if x = k then (k, c + 1) :: rest
    else (k, c) :: insertCount rest x

/-- The sorted count map built by `Rcpp::table` over the whole input. -/
def tableMap (v : List ℚ) : List (ℚ × ℕ) :=
  v.foldl insertCount []

/-- Embedding of `rcpp_get_composition_vector2`: `table(v)` as an integer
vector, i.e. the occurrence counts in ascending order of their keys. -/
def rcpp_get_composition_vector2 (v : List ℚ) : List ℕ :=
  (tableMap v).map Prod.snd

/-- The spec's reference definition of the Composition Counter, written
from its words: determine the distinct values, sort them ascending, count
exact-equality occurrences of each, and emit the counts in that order. -/
def compute_composition (v : List ℚ) : List ℕ :=
  (List.insertionSort (· ≤ ·) v.dedup).map (fun x => v.count x)

/-- The invocation surface of `rcpp_get_composition_vector2`: the body has
no error branch, so every call returns the table unconditionally. -/
def rcpp_get_composition_vector2_checked (v : List ℚ) :
    Except String (List ℕ) :=
  Except.ok (rcpp_get_composition_vector2 v)

/-- Keys of a count map. -/
def keysOf (m : List (ℚ × ℕ)) : List ℚ :=
  m.map Prod.fst

/-- `m` is the sorted count map of the occurrence function `f`: its keys
are strictly ascending, a value is a key exactly when `f` is nonzero on
it, and every entry carries the `f`-count of its key. -/
def Represents (f : ℚ → ℕ) (m : List (ℚ × ℕ)) : Prop :=
  (keysOf m).Pairwise (· < ·) ∧
    (∀ k, k ∈ keysOf m ↔ f k ≠ 0) ∧
    ∀ p ∈ m, p.2 = f p.1

lemma keysOf_nil : keysOf [] = [] := rfl

lemma keysOf_cons (k : ℚ) (c : ℕ) (m : List (ℚ × ℕ)) :
    keysOf ((k, c) :: m) = k :: keysOf m := rfl

lemma mem_keysOf_of_mem {p : ℚ × ℕ} {m : List (ℚ × ℕ)} (h : p ∈ m) :
    p.1 ∈ keysOf m :=
  List.mem_map_of_mem Prod.fst h

lemma mem_keysOf_insertCount (m : List (ℚ × ℕ)) (x j : ℚ) :
    j ∈ keysOf (insertCount m x) ↔ j = x ∨ j ∈ keysOf m := by
  induction m with
  | nil => simp [insertCount, keysOf]
  | cons p rest ih =>
    obtain ⟨k, c⟩ := p
    by_cases h1 : x < k
    · simp only [insertCount, if_pos h1, keysOf_cons, List.mem_cons]
    · by_cases h2 : x = k
      · simp only [insertCount, if_neg h1, if_pos h2, keysOf_cons,
          List.mem_cons]
        subst h2
        tauto
      · simp only [insertCount, if_neg h1, if_neg h2, keysOf_cons,
          List.mem_cons, ih]
        tauto

lemma represents_insertCount {f : ℚ → ℕ} {m : List (ℚ × ℕ)} (x : ℚ)
    (h : Represents f m) :
    Represents (fun j => f j + if j = x then 1 else 0) (insertCount m x) := by
  induction m generalizing f with
  | nil =>
    obtain ⟨-, hmem, -⟩ := h
    have hzero : ∀ j, f j = 0 := by
      intro j
      by_contra hj
      exact absurd ((hmem j).mpr hj) (by simp [keysOf])
    refine ⟨by simp [insertCount, keysOf], ?_, ?_⟩
    · intro j
      by_cases hj : j = x <;> simp [insertCount, keysOf, hj, hzero j]
    · intro p hp
      simp only [insertCount, List.mem_singleton] at hp
      subst hp
      simp [hzero x]
  | cons q rest ih =>
    obtain ⟨k, c⟩ := q
    obtain ⟨hsort, hmem, hcnt⟩ := h
    rw [keysOf_cons, List.pairwise_cons] at hsort
    obtain ⟨hklt, hrest⟩ := hsort
    by_cases h1 : x < k
    · -- a fresh entry (x, 1) is prepended
      have hxnot : x ∉ keysOf ((k, c) :: rest) := by
        rw [keysOf_cons, List.mem_cons]
        rintro (rfl | hx)
        · exact lt_irrefl x h1
        · exact absurd (lt_trans h1 (hklt x hx)) (lt_irrefl x)
      have hfx : f x = 0 := by
        by_contra hfx
        exact hxnot ((hmem x).mpr hfx)
      refine ⟨?_, ?_, ?_⟩
      · simp only [insertCount, if_pos h1, keysOf_cons]
        refine List.pairwise_cons.mpr ⟨?_, List.pairwise_cons.mpr ⟨hklt, hrest⟩⟩
        intro j hj
        rcases List.mem_cons.mp hj with rfl | hj
        · exact h1
        · exact lt_trans h1 (hklt j hj)
      · intro j
        by_cases hj : j = x
        · simp only [insertCount, if_pos h1, keysOf_cons, List.mem_cons,
            if_pos hj]
          exact ⟨fun _ => Nat.succ_ne_zero _, fun _ => Or.inl hj⟩
        · have hmj := hmem j
          rw [keysOf_cons, List.mem_cons] at hmj
          simp only [insertCount, if_pos h1, keysOf_cons, List.mem_cons,
            if_neg hj, Nat.add_zero]
          rw [← hmj]
          tauto
      · intro p hp
        simp only [insertCount, if_pos h1, List.mem_cons] at hp
        rcases hp with rfl | hp
        · simp [hfx]
        · have hne : p.1 ≠ x := by
            intro hpx
            exact hxnot (hpx ▸ mem_keysOf_of_mem (List.mem_cons.mpr hp))
          simp only [if_neg hne, Nat.add_zero]
          exact hcnt p (List.mem_cons.mpr hp)
    · by_cases h2 : x = k
      · -- the head entry's count is bumped
        have hcount : insertCount ((k, c) :: rest) x = (k, c + 1) :: rest := by
          simp only [insertCount, if_neg h1, if_pos h2]
        refine ⟨?_, ?_, ?_⟩
        · rw [hcount, keysOf_cons]
          exact List.pairwise_cons.mpr ⟨hklt, hrest⟩
        · intro j
          rw [hcount, keysOf_cons, List.mem_cons]
          by_cases hj : j = x
          · simp only [if_pos hj]
            exact ⟨fun _ => Nat.succ_ne_zero _, fun _ => Or.inl (hj.trans h2)⟩
          · simp only [if_neg hj, Nat.add_zero]
            have hmj := hmem j
            rw [keysOf_cons, List.mem_cons] at hmj
            exact hmj
        · intro p hp
          rw [hcount, List.mem_cons] at hp
          rcases hp with rfl | hp
          · have hc : c = f k := hcnt (k, c) (List.mem_cons_self _ _)
            show c + 1 = f k + if k = x then 1 else 0
            rw [if_pos h2.symm, hc]
          · have hne : p.1 ≠ x := by
              intro hpx
              have hlt := hklt p.1 (mem_keysOf_of_mem hp)
              rw [hpx, h2] at hlt
              exact lt_irrefl k hlt
            have hc : p.2 = f p.1 := hcnt p (List.mem_cons.mpr (Or.inr hp))
            simp only [if_neg hne, Nat.add_zero]
            exact hc
      · -- recursion past the head entry
        have hkx : k < x := lt_of_le_of_ne (not_lt.mp h1) fun he => h2 he.symm
        have hrep : Represents (fun j => if j = k then 0 else f j) rest := by
          refine ⟨hrest, ?_, ?_⟩
          · intro j
            show j ∈ keysOf rest ↔ (if j = k then 0 else f j) ≠ 0
            by_cases hj : j = k
            · rw [if_pos hj]
              constructor
              · intro hjm
                have hlt := hklt j hjm
                rw [hj] at hlt
                exact absurd hlt (lt_irrefl k)
              · intro h0
                exact absurd rfl h0
            · rw [if_neg hj]
              have := hmem j
              rw [keysOf_cons, List.mem_cons] at this
              constructor
              · intro hjm
                exact this.mp (Or.inr hjm)
              · intro hfj
                rcases this.mpr hfj with rfl | hjm
                · exact absurd rfl hj
                · exact hjm
          · intro p hp
            have hne : p.1 ≠ k := by
              intro hpk
              have hlt := hklt p.1 (mem_keysOf_of_mem hp)
              rw [hpk] at hlt
              exact lt_irrefl k hlt
            show p.2 = if p.1 = k then 0 else f p.1
            rw [if_neg hne]
            exact hcnt p (List.mem_cons.mpr (Or.inr hp))
        have ihx := ih hrep
        obtain ⟨ihs, ihm, ihc⟩ := ihx
        refine ⟨?_, ?_, ?_⟩
        · simp only [insertCount, if_neg h1, if_neg h2, keysOf_cons]
          refine List.pairwise_cons.mpr ⟨?_, ihs⟩
          intro j hj
          rcases (mem_keysOf_insertCount rest x j).mp hj with rfl | hj
          · exact hkx
          · exact hklt j hj
        · intro j
          by_cases hj : j = k
          · have hfk : f j ≠ 0 := (hmem j).mp
              (by rw [keysOf_cons]; exact List.mem_cons.mpr (Or.inl hj))
            have hjx : j ≠ x := fun he => h2 (he.symm.trans hj)
            simp only [insertCount, if_neg h1, if_neg h2, keysOf_cons,
              List.mem_cons, if_neg hjx, Nat.add_zero]
            exact ⟨fun _ => hfk, fun _ => Or.inl hj⟩
          · simp only [insertCount, if_neg h1, if_neg h2, keysOf_cons,
              List.mem_cons]
            have hmi := ihm j
            simp only [if_neg hj] at hmi
            rw [hmi]
            tauto
        · intro p hp
          simp only [insertCount, if_neg h1, if_neg h2, List.mem_cons] at hp
          rcases hp with rfl | hp
          · have hne : k ≠ x := fun he => h2 he.symm
            have hc : c = f k := hcnt (k, c) (List.mem_cons_self _ _)
            show c = f k + if k = x then 1 else 0
            rw [if_neg hne, Nat.add_zero, hc]
          · have hne : p.1 ≠ k := by
              intro hpk
              rcases (mem_keysOf_insertCount rest x p.1).mp
                  (mem_keysOf_of_mem hp) with he | hjm
              · exact h2 (hpk ▸ he).symm
              · exact lt_irrefl k (hpk ▸ hklt p.1 hjm)
            have := ihc p hp
            simpa [if_neg hne] using this

lemma represents_congr {f g : ℚ → ℕ} {m : List (ℚ × ℕ)}
    (hfg : ∀ k, f k = g k) (h : Represents f m) : Represents g m := by
  obtain ⟨hs, hm, hc⟩ := h
  exact ⟨hs, fun k => (hfg k) ▸ hm k, fun p hp => (hfg p.1) ▸ hc p hp⟩

lemma represents_foldl (v : List ℚ) :
    ∀ (f : ℚ → ℕ) (m : List (ℚ × ℕ)), Represents f m →
      Represents (fun k => f k + v.count k) (v.foldl insertCount m) := by
  induction v with
  | nil =>
    intro f m h
    exact represents_congr (fun k => by simp) h
  | cons x t ih =>
    intro f m h
    have h1 := represents_insertCount x h
    have h2 := ih _ _ h1
    refine represents_congr (fun k => ?_) h2
    have hcc : (x :: t).count k = t.count k + if x = k then 1 else 0 := by
      rw [List.count_cons]
      simp
    rw [hcc]
    by_cases hkx : k = x
    · rw [if_pos hkx, if_pos hkx.symm]
      omega
    · rw [if_neg hkx, if_neg fun he => hkx he.symm]
      omega

lemma represents_tableMap (v : List ℚ) :
    Represents (fun k => v.count k) (tableMap v) := by
  have h0 : Represents (fun _ => 0) ([] : List (ℚ × ℕ)) :=
    ⟨by simp [keysOf], by simp [keysOf], by simp⟩
  have h1 := represents_foldl v _ _ h0
  exact represents_congr (fun k => by simp) h1

lemma eq_of_pairwise_lt_of_mem_iff :
    ∀ (l l2 : List ℚ), l.Pairwise (· < ·) → l2.Pairwise (· < ·) →
      (∀ k, k ∈ l ↔ k ∈ l2) → l = l2 := by
  intro l
  induction l with
  | nil =>
    intro l2 _ _ hm
    cases l2 with
    | nil => rfl
    | cons b t2 =>
      exact absurd ((hm b).mpr (List.mem_cons_self _ _)) (List.not_mem_nil b)
  | cons a t ih =>
    intro l2 hl hl2 hm
    cases l2 with
    | nil =>
      exact absurd ((hm a).mp (List.mem_cons_self _ _)) (List.not_mem_nil a)
    | cons b t2 =>
      rw [List.pairwise_cons] at hl hl2
      obtain ⟨ha, ht⟩ := hl
      obtain ⟨hb, ht2⟩ := hl2
      have hab : a = b := by
        rcases List.mem_cons.mp ((hm a).mp (List.mem_cons_self _ _)) with
          he | hmem
        · exact he
        · rcases List.mem_cons.mp ((hm b).mpr (List.mem_cons_self _ _)) with
            he | hmem2
          · exact he.symm
          · exact absurd (lt_trans (hb a hmem) (ha b hmem2)) (lt_irrefl b)
      subst hab
      congr 1
      refine ih t2 ht ht2 fun k => ⟨?_, ?_⟩
      · intro hk
        rcases List.mem_cons.mp
            ((hm k).mp (List.mem_cons.mpr (Or.inr hk))) with he | h2
        · exact absurd (ha k hk) (by rw [he]; exact lt_irrefl a)
        · exact h2
      · intro hk
        rcases List.mem_cons.mp
            ((hm k).mpr (List.mem_cons.mpr (Or.inr hk))) with he | h2
        · exact absurd (hb k hk) (by rw [he]; exact lt_irrefl a)
        · exact h2

lemma eq_keysOf_map {f : ℚ → ℕ} :
    ∀ (m : List (ℚ × ℕ)), (∀ p ∈ m, p.2 = f p.1) →
      m = (keysOf m).map fun k => (k, f k) := by
  intro m
  induction m with
  | nil => intro _; rfl
  | cons p rest ih =>
    intro h
    obtain ⟨k, c⟩ := p
    have hc : c = f k := h (k, c) (List.mem_cons_self _ _)
    rw [keysOf_cons, List.map_cons, ← hc]
    congr 1
    exact ih fun q hq => h q (List.mem_cons.mpr (Or.inr hq))

lemma represents_unique {f : ℚ → ℕ} {m m2 : List (ℚ × ℕ)}
    (h : Represents f m) (h2 : Represents f m2) : m = m2 := by
  obtain ⟨hs, hm, hc⟩ := h
  obtain ⟨hs2, hm2, hc2⟩ := h2
  have hkeys : keysOf m = keysOf m2 :=
    eq_of_pairwise_lt_of_mem_iff _ _ hs hs2 fun k =>
      (hm k).trans (hm2 k).symm
  rw [eq_keysOf_map m hc, eq_keysOf_map m2 hc2, hkeys]

lemma keysOf_map_pair (f : ℚ → ℕ) (L : List ℚ) :
    keysOf (L.map fun k => (k, f k)) = L := by
  show (L.map fun k => (k, f k)).map Prod.fst = L
  rw [List.map_map]
  have hid : (Prod.fst ∘ fun k : ℚ => (k, f k)) = id := rfl
  rw [hid, List.map_id]

/-- The distinct values of `v` sorted ascending. -/
def sortedDistinct (v : List ℚ) : List ℚ :=
  List.insertionSort (fun a b => a ≤ b) v.dedup

lemma sortedDistinct_sorted (v : List ℚ) :
    (sortedDistinct v).Sorted (fun a b => a ≤ b) :=
  List.sorted_insertionSort _ _

lemma sortedDistinct_perm (v : List ℚ) :
    List.Perm (sortedDistinct v) v.dedup :=
  List.perm_insertionSort _ _

lemma sortedDistinct_nodup (v : List ℚ) : (sortedDistinct v).Nodup :=
  (sortedDistinct_perm v).nodup_iff.mpr v.nodup_dedup

lemma mem_sortedDistinct (v : List ℚ) (k : ℚ) :
    k ∈ sortedDistinct v ↔ k ∈ v :=
  (sortedDistinct_perm v).mem_iff.trans List.mem_dedup

lemma represents_sortedDistinct (v : List ℚ) :
    Represents (fun k => v.count k)
      ((sortedDistinct v).map fun k => (k, v.count k)) := by
  refine ⟨?_, ?_, ?_⟩
  · rw [keysOf_map_pair]
    have hle : (sortedDistinct v).Pairwise (fun a b => a ≤ b) :=
      sortedDistinct_sorted v
    have hne : (sortedDistinct v).Pairwise (fun a b => a ≠ b) :=
      sortedDistinct_nodup v
    exact (hle.and hne).imp fun hab => lt_of_le_of_ne hab.1 hab.2
  · intro k
    rw [keysOf_map_pair, mem_sortedDistinct, ← List.count_pos_iff]
    exact Nat.pos_iff_ne_zero
  · intro p hp
    obtain ⟨k, _, rfl⟩ := List.mem_map.mp hp
    rfl

lemma tableMap_eq (v : List ℚ) :
    tableMap v = (sortedDistinct v).map fun k => (k, v.count k) :=
  represents_unique (represents_tableMap v) (represents_sortedDistinct v)

lemma rcpp_eq_compute (v : List ℚ) :
    rcpp_get_composition_vector2 v = compute_composition v := by
  show (tableMap v).map Prod.snd = compute_composition v
  rw [tableMap_eq, List.map_map]
  rfl

/-- C1: for every finite input sequence, `rcpp_get_composition_vector2`
returns exactly the spec's reference composition: one count per distinct
value observed in the input, ordered to match the ascending order of the
distinct values, each count being the number of elements exactly equal to
that value. -/
theorem C1_matches_reference_composition (v : List ℚ) :
    rcpp_get_composition_vector2 v = compute_composition v :=
  rcpp_eq_compute v

/-- C2: the sum of the elements of the composition vector equals the
length of the input sequence. -/
theorem C2_sum_eq_length (v : List ℚ) :
    (rcpp_get_composition_vector2 v).sum = v.length := by
  rw [rcpp_eq_compute]
  show ((sortedDistinct v).map fun x => v.count x).sum = v.length
  rw [← List.sum_map_count_dedup_eq_length v]
  exact List.Perm.sum_eq ((sortedDistinct_perm v).map _)

/-- C3: the length of the composition vector equals the number of
distinct values occurring in the input sequence. -/
theorem C3_length_eq_distinct_count (v : List ℚ) :
    (rcpp_get_composition_vector2 v).length = v.toFinset.card := by
  rw [rcpp_eq_compute, List.card_toFinset]
  show ((sortedDistinct v).map fun x => v.count x).length = v.dedup.length
  rw [List.length_map]
  exact (sortedDistinct_perm v).length_eq

/-- C4: permuting the input sequence yields the identical output
sequence: the composition vector depends only on the multiset of input
values, not on their order. -/
theorem C4_permutation_invariant {v w : List ℚ} (h : List.Perm v w) :
    rcpp_get_composition_vector2 v = rcpp_get_composition_vector2 w := by
  rw [rcpp_eq_compute, rcpp_eq_compute]
  show ((sortedDistinct v).map fun x => v.count x)
      = (sortedDistinct w).map fun x => w.count x
  have hsd : sortedDistinct v = sortedDistinct w :=
    List.eq_of_perm_of_sorted
      ((sortedDistinct_perm v).trans
        (h.dedup.trans (sortedDistinct_perm w).symm))
      (sortedDistinct_sorted v) (sortedDistinct_sorted w)
  rw [hsd]
  exact List.map_congr_left fun x _ => h.count_eq x

/-- Witness for C4 at the spec's own example: `[2,1,2,1,3,2]` is a
permutation of `[1,1,2,2,2,3]` and both yield the same composition. -/
theorem C4_permutation_invariant_witness :
    List.Perm ([2, 1, 2, 1, 3, 2] : List ℚ) [1, 1, 2, 2, 2, 3] ∧
      rcpp_get_composition_vector2 [2, 1, 2, 1, 3, 2]
        = rcpp_get_composition_vector2 [1, 1, 2, 2, 2, 3] :=
  ⟨by decide, C4_permutation_invariant (by decide)⟩

/-- C5: the function is deterministic: two invocations on equal inputs
return equal output sequences. -/
theorem C5_deterministic (v1 v2 : List ℚ) (h : v1 = v2) :
    rcpp_get_composition_vector2 v1 = rcpp_get_composition_vector2 v2 :=
  congrArg rcpp_get_composition_vector2 h

/-- Witness for C5: repeated calls on `[5]` agree. -/
theorem C5_deterministic_witness :
    rcpp_get_composition_vector2 [5] = rcpp_get_composition_vector2 [5] :=
  C5_deterministic [5] [5] rfl

/-- C6: the empty input sequence yields the empty output sequence. -/
theorem C6_empty_input :
    rcpp_get_composition_vector2 [] = [] :=
  rfl

/-- C7: `[5]` yields `[1]`, and `[1,1,2,2,2,3]` yields `[2,3,1]`, the
counts for the ascending distinct values 1, 2, 3. -/
theorem C7_concrete_examples :
    rcpp_get_composition_vector2 [5] = [1] ∧
      rcpp_get_composition_vector2 [1, 1, 2, 2, 2, 3] = [2, 3, 1] :=
  ⟨by decide, by decide⟩

/-- C9: on any well-formed numeric sequence the call never fails: its
invocation surface always returns a result and no error is raised. -/
theorem C9_never_fails (v : List ℚ) :
    ∃ r, rcpp_get_composition_vector2_checked v = Except.ok r :=
  ⟨rcpp_get_composition_vector2 v, rfl⟩

/-- C10: every element of the composition vector is at least 1: counts
are emitted only for values actually observed in the input, so no zero
count ever appears. -/
theorem C10_counts_positive (v : List ℚ) (c : ℕ)
    (h : c ∈ rcpp_get_composition_vector2 v) : 1 ≤ c := by
  rw [rcpp_eq_compute] at h
  have h2 : c ∈ (sortedDistinct v).map fun x => v.count x := h
  obtain ⟨k, hk, rfl⟩ := List.mem_map.mp h2
  exact List.count_pos_iff.mpr ((mem_sortedDistinct v k).mp hk)

/-- Witness for C10: the count 1 appears in the composition of `[5]` and
is at least 1. -/
theorem C10_counts_positive_witness :
    (1 : ℕ) ∈ rcpp_get_composition_vector2 [5] ∧ 1 ≤ (1 : ℕ) :=
  ⟨by decide, C10_counts_positive [5] 1 (by decide)⟩
